import Mathlib

/-!
# Verification of the gcp-backup synchronization core

A shallow embedding of `cmd/run.go` from the `alexhokl/gcp-backup`
repository, together with proofs of the specification's claims about it.

The embedding models:
* Go's `path.Clean` and `path.Join` (used to build remote object keys),
* `IsBackupRequired`, `GetPathsRequiredBackup` (the backup planner),
* `GetChecksums` (the fingerprinter),
* `ExtractFilePaths` / `ExtractFilePathsFromList` (the path expander),
* `CopyFileToBucket` and the `runBackup` orchestrator (plan + upload loop,
  honouring the dry-run flag).

External collaborators (the GCS client, `filepath.Rel`, the local
filesystem, CRC32 computation) are modelled as explicit parameters:
* the remote store is an association list from object key to stored
  checksum, and oracle queries (`IsBucketObjectExist`,
  `GetBucketObjectChecksum`) may fail, so they return `Except`;
* `filepath.Rel` is an explicit function parameter (both call sites in the
  source invoke the same standard-library function with the same
  arguments);
* a file read that computes a CRC32 checksum is a function from path to
  `Except String Nat` (Go's `uint32` checksums are modelled as `Nat`;
  only equality of checksums is ever used, never arithmetic);
* the local filesystem seen by the path expander is a tree of nodes.

Errors are modelled as `String` messages mirroring the `fmt.Errorf`
wrapping of the source; Go's `errors.Join` is modelled as joining the
collected messages with a newline.
-/

namespace GcpBackup

/-! ## Go `path.Clean` and `path.Join`

Faithful model of Go's `path` package functions on slash-separated paths,
working on `List Char`.  `path.Clean` splits on slashes and processes the
segments with a stack: empty and `.` segments are dropped, `..` pops a
previous segment (except when rooted at the start, or when the stack top
is itself a `..` in an unrooted path). -/

/-- Split a character list on `/` characters.  `splitSlash "a//b" = ["a", "", "b"]`. -/
def splitSlash : List Char → List (List Char)
  | [] => [[]]
  | c :: rest =>
    if c = '/' then [] :: splitSlash rest
    else
      match splitSlash rest with
      | [] => [[c]]
      | s :: ss => (c :: s) :: ss

/-- Join segments with `/` characters; inverse of `splitSlash`. -/
def joinSegs : List (List Char) → List Char
  | [] => []
  | [s] => s
  | s :: rest => s ++ '/' :: joinSegs rest

/-- The stack-based segment processing of Go's `path.Clean`: drops empty
and `.` segments and resolves `..` against the output stack. -/
def cleanLoop (rooted : Bool) : List (List Char) → List (List Char) → List (List Char)
  | acc, [] => acc.reverse
  | acc, s :: rest =>
    if s = [] ∨ s = ['.'] then cleanLoop rooted acc rest
    else if s = ['.', '.'] then
      match acc with
      | t :: acc2 =>
        if t = ['.', '.'] then cleanLoop rooted (s :: t :: acc2) rest
        else cleanLoop rooted acc2 rest
      | [] =>
        if rooted then cleanLoop rooted [] rest
        else cleanLoop rooted [s] rest
    else cleanLoop rooted (s :: acc) rest

/-- Go's `path.Clean` on a character list. -/
def goClean (p : List Char) : List Char :=
  if p = [] then ['.']
  else
    let rooted := p.head? = some '/'
    let segs := cleanLoop rooted [] (splitSlash p)
    let out := joinSegs segs
    let out2 := if rooted then '/' :: out else out
    if out2 = [] then ['.'] else out2

/-- The element-joining loop of Go's `path.Join`: leading empty elements
are skipped, then elements are joined with single slashes. -/
def goJoinBuf (elems : List (List Char)) : List Char :=
  elems.foldl
    (fun buf e =>
      if buf ≠ [] ∨ e ≠ [] then
        if buf ≠ [] then buf ++ '/' :: e else buf ++ e
      else buf)
    []

/-- Go's `path.Join` on character lists: returns the empty string when all
elements are empty, otherwise the cleaned slash-join of the elements. -/
def goJoin (elems : List (List Char)) : List Char :=
  if elems.all (· = []) then []
  else goClean (goJoinBuf elems)

/-- Go's `path.Join` on strings. -/
def goPathJoin (elems : List String) : String :=
  ⟨goJoin (elems.map String.data)⟩

/-- The remote object key as constructed at planning time
(`GetPathsRequiredBackup`, line 130 of `run.go`):
`path.Join(machineAlias, "/", relativePath)`. -/
def planObjectPath (machineAlias relativePath : String) : String :=
  goPathJoin [machineAlias, "/", relativePath]

/-- The remote object key as constructed at upload time
(`CopyFileToBucket`, line 111 of `run.go`):
`path.Join(machineAlias, "/", relativePath)`. -/
def uploadObjectPath (machineAlias relativePath : String) : String :=
  goPathJoin [machineAlias, "/", relativePath]

/-! ## The remote store and its oracle

`IsBucketObjectExist` and `GetBucketObjectChecksum` are remote calls that
can fail, so the oracle returns `Except`.  A concrete, healthy store is an
association list from object key to the checksum the store keeps for that
object (GCS computes and stores the CRC32C of the uploaded bytes). -/

/-- The remote state oracle: existence and stored-checksum queries, each of
which may fail (auth, network).  Models `googleapi.IsBucketObjectExist`
and `googleapi.GetBucketObjectChecksum`. -/
structure Oracle where
  exist : String → Except String Bool
  chk : String → Except String Nat

/-- A remote store in a healthy state: object key ↦ stored checksum.
A later upload conses a new entry, and `List.lookup` finds the newest. -/
abbrev Store := List (String × Nat)

/-- The oracle a healthy store provides: existence lookups always answer
(a missing object is `(false, nil)`, not an error), and checksum retrieval
answers for present objects. -/
def oracleOfStore (s : Store) : Oracle where
  exist := fun k => .ok (List.lookup k s).isSome
  chk := fun k =>
    match List.lookup k s with
    | some c => .ok c
    | none => .error ("object [" ++ k ++ "] not found")

/-! ## The planner: `IsBackupRequired` and `GetPathsRequiredBackup` -/

/-- `IsBackupRequired` (`run.go` lines 144–157): query existence of the
object; absent ⇒ backup required; present ⇒ fetch the stored checksum and
require backup exactly when it differs from the local checksum.  Oracle
failures propagate with the source's error wrapping. -/
def IsBackupRequired (o : Oracle) (bucketName objectPath : String)
    (localChecksum : Nat) : Except String Bool :=
  match o.exist objectPath with
  | .error e =>
    .error ("unable to determine if object [" ++ objectPath ++
      "] exists in bucket [gs://" ++ bucketName ++ "]: " ++ e)
  | .ok false => .ok true
  | .ok true =>
    match o.chk objectPath with
    | .error e =>
      .error ("unable to retrieve checksum of object [" ++ objectPath ++
        "] in bucket [gs://" ++ bucketName ++ "]: " ++ e)
    | .ok remoteChecksum => .ok (localChecksum != remoteChecksum)

/-- `GetPathsRequiredBackup` (`run.go` lines 122–142): walk the checksum
map (a Go map iterates in some arbitrary order, modelled by the order of
the association list), classify each file with `IsBackupRequired` at the
object key `path.Join(machineAlias, "/", filepath.Rel(parentPath, localPath))`,
and return the required and ignored paths in iteration order.  Any error
aborts immediately with the source's wrapping.  `filepath.Rel` is the
`rel` parameter. -/
def GetPathsRequiredBackup (o : Oracle) (bucketName machineAlias parentPath : String)
    (rel : String → String → Except String String) :
    List (String × Nat) → Except String (List String × List String)
  | [] => .ok ([], [])
  | (localPath, localChecksum) :: rest =>
    match rel parentPath localPath with
    | .error e =>
      .error ("unable to determine relative path of local file [" ++
        localPath ++ "]: " ++ e)
    | .ok relativePath =>
      match IsBackupRequired o bucketName (planObjectPath machineAlias relativePath)
          localChecksum with
      | .error e =>
        .error ("unable to determine if backup is required for file [" ++
          localPath ++ "]: " ++ e)
      | .ok required =>
        match GetPathsRequiredBackup o bucketName machineAlias parentPath rel rest with
        | .error e => .error e
        | .ok (req, ign) =>
          .ok (if required then (localPath :: req, ign) else (req, localPath :: ign))

/-! ## The fingerprinter: `GetChecksums` -/

/-- Go's `errors.Join` renders the collected errors joined by newlines. -/
def joinErrs (msgs : List String) : String :=
  String.intercalate "\n" msgs

/-- `GetChecksums` (`run.go` lines 159–174): compute the CRC32 checksum of
every path (the `crc` parameter models `iohelper.GenerateCRC32Checksum`);
failures are collected per path, and if any occurred the whole call
returns the joined error and no map.  The Go map is modelled as an
association list in insertion order; since `crc` is a function, a
duplicated path inserts the same value, so lookup agrees with Go's
overwrite semantics. -/
def GetChecksums (crc : String → Except String Nat) (localPaths : List String) :
    Except String (List (String × Nat)) :=
  let res := localPaths.foldl
    (fun acc localPath =>
      match crc localPath with
      | .error e =>
        (acc.1, acc.2 ++ ["unable to generate checksum of file [" ++ localPath ++ "]: " ++ e])
      | .ok checksum => (acc.1 ++ [(localPath, checksum)], acc.2))
    ([], [])
  if res.2 = [] then .ok res.1 else .error (joinErrs res.2)

/-! ## The uploader: `CopyFileToBucket` -/

/-- `CopyFileToBucket` (`run.go` lines 105–120): read the local file and
write its bytes to the object at `path.Join(machineAlias, "/", relativePath)`.
Only checksums appear in the model, so the read is modelled by `crc`
(reading the bytes whose CRC32 the store will record), and a committed
write makes the store's checksum for the key the checksum of the uploaded
bytes. -/
def CopyFileToBucket (crc : String → Except String Nat) (s : Store)
    (machineAlias relativePath localPath : String) : Except String Store :=
  match crc localPath with
  | .error e => .error ("unable to read local file [" ++ localPath ++ "]: " ++ e)
  | .ok checksum => .ok ((uploadObjectPath machineAlias relativePath, checksum) :: s)

/-! ## The local filesystem and the path expander -/

/-- The `fs.FileMode` type bits of a non-directory entry, as returned by
`DirEntry.Type()`. -/
inductive FType where
  | regular
  | symlink
  | socket
  | namedPipe
  | device
  | charDevice
  | irregular
deriving DecidableEq, Repr

/-- A snapshot of a local filesystem subtree: a non-directory entry with
its type bits, a readable directory with its named entries in `ReadDir`
order, or a directory that exists but whose `ReadDir` fails. -/
inductive FSNode where
  | file : FType → FSNode
  | dir : List (String × FSNode) → FSNode
  | unreadableDir : String → FSNode

mutual

/-- `ExtractFilePaths` (`run.go` lines 205–234) on an existing node: a
directory is enumerated by `extractEntries`; an unreadable directory
yields the `ReadDir` error; any existing non-directory path is returned
as-is (`iohelper.IsFileExist`). -/
def extractNode (localPath : String) : FSNode → Except String (List String)
  | .file _ => .ok [localPath]
  | .unreadableDir msg =>
    .error ("unable to read directory [" ++ localPath ++ "]: " ++ msg)
  | .dir entries => extractEntries localPath entries

/-- The entry loop of `ExtractFilePaths` (`run.go` lines 212–227): the
`switch file.Type()` skips symbolic links and sockets, recurses into
directory-typed entries (propagating their error immediately), and
appends every other entry — regular or any other special type — to the
result. -/
def extractEntries (localPath : String) : List (String × FSNode) → Except String (List String)
  | [] => .ok []
  | (name, child) :: rest =>
    match child with
    | .file .symlink => extractEntries localPath rest
    | .file .socket => extractEntries localPath rest
    | .file _ =>
      match extractEntries localPath rest with
      | .error e => .error e
      | .ok tail => .ok (goPathJoin [localPath, name] :: tail)
    | _ =>
      match extractNode (goPathJoin [localPath, name]) child with
      | .error e => .error e
      | .ok filesInDir =>
        match extractEntries localPath rest with
        | .error e => .error e
        | .ok tail => .ok (filesInDir ++ tail)

end

/-- `ExtractFilePaths` at a path: `resolve` models what the filesystem
holds at each absolute path; a path that exists as neither file nor
directory resolves to `none` and produces the source's does-not-exist
error. -/
def ExtractFilePaths (resolve : String → Option FSNode) (localPath : String) :
    Except String (List String) :=
  match resolve localPath with
  | none => .error ("path [" ++ localPath ++ "] does not exist")
  | some node => extractNode localPath node

/-- `ExtractFilePathsFromList` (`run.go` lines 188–203): expand every
path spec joined onto `parentPath`, collecting per-spec failures; if any
occurred return only their join, otherwise the concatenation of all
expansions. -/
def ExtractFilePathsFromList (resolve : String → Option FSNode)
    (parentPath : String) (relativePaths : List String) : Except String (List String) :=
  let res := relativePaths.foldl
    (fun acc p =>
      match ExtractFilePaths resolve (goPathJoin [parentPath, p]) with
      | .error e =>
        (acc.1, acc.2 ++ ["unable to extract file paths from [" ++ p ++ "]: " ++ e])
      | .ok paths => (acc.1 ++ paths, acc.2))
    (([] : List String), ([] : List String))
  if res.2 = [] then .ok res.1 else .error (joinErrs res.2)

/-! ## The run orchestrator -/

/-- The per-required-file loop of `runBackup` (`run.go` lines 83–100):
compute the relative path (errors abort, dry-run included), and unless
dry-run is set, upload the file; the store threads through the uploads. -/
def uploadLoop (dryRun : Bool) (crc : String → Except String Nat)
    (bucketName machineAlias homeDir : String)
    (rel : String → String → Except String String) (s : Store) :
    List String → Except String Store
  | [] => .ok s
  | localPath :: rest =>
    match rel homeDir localPath with
    | .error e =>
      .error ("unable to determine relative path of local file [" ++
        localPath ++ "]: " ++ e)
    | .ok relativePath =>
      if dryRun then
        uploadLoop dryRun crc bucketName machineAlias homeDir rel s rest
      else
        match CopyFileToBucket crc s machineAlias relativePath localPath with
        | .error e =>
          .error ("unable to upload file [" ++ localPath ++ "] to bucket [gs://" ++
            bucketName ++ "/" ++ machineAlias ++ "/" ++ relativePath ++ "]: " ++ e)
        | .ok s2 => uploadLoop dryRun crc bucketName machineAlias homeDir rel s2 rest

/-- The core of `runBackup` (`run.go` lines 61–103) after client and
bucket-accessibility checks: expand the configured paths from the home
directory, fingerprint them, plan against the remote store, then run the
upload loop.  Returns the required paths, the ignored paths and the final
remote store state. -/
def runBackup (dryRun : Bool) (bucketName machineAlias homeDir : String)
    (resolve : String → Option FSNode)
    (rel : String → String → Except String String)
    (crc : String → Except String Nat) (store : Store) (paths : List String) :
    Except String (List String × List String × Store) :=
  match ExtractFilePathsFromList resolve homeDir paths with
  | .error e => .error ("unable to extract local file paths: " ++ e)
  | .ok localFilePaths =>
    match GetChecksums crc localFilePaths with
    | .error e => .error ("unable to generate checksums of local files: " ++ e)
    | .ok checksums =>
      match GetPathsRequiredBackup (oracleOfStore store) bucketName machineAlias
          homeDir rel checksums with
      | .error e => .error ("unable to determine paths required backup: " ++ e)
      | .ok (req, ign) =>
        match uploadLoop dryRun crc bucketName machineAlias homeDir rel store req with
        | .error e => .error e
        | .ok s2 => .ok (req, ign, s2)

/-! ## Specification-side definitions

These follow the spec's words and are compared with the source-side
definitions above. -/

mutual

/-- The spec's description of expanding one existing node, as amended:
every non-directory entry other than a symbolic link or a socket is
included (regular files and also the remaining special types), and
subdirectories are recursed into. -/
def gatherNode (localPath : String) : FSNode → List String
  | .file _ => [localPath]
  | .unreadableDir _ => []
  | .dir entries => gatherEntries localPath entries

/-- The entry loop of `gatherNode`. -/
def gatherEntries (localPath : String) : List (String × FSNode) → List String
  | [] => []
  | (name, child) :: rest =>
    match child with
    | .file .symlink => gatherEntries localPath rest
    | .file .socket => gatherEntries localPath rest
    | .file _ => goPathJoin [localPath, name] :: gatherEntries localPath rest
    | _ => gatherNode (goPathJoin [localPath, name]) child ++ gatherEntries localPath rest

end

mutual

/-- Every directory in the subtree can be enumerated. -/
def readableNode : FSNode → Bool
  | .file _ => true
  | .unreadableDir _ => false
  | .dir entries => readableEntries entries

/-- Every directory below any of the entries can be enumerated. -/
def readableEntries : List (String × FSNode) → Bool
  | [] => true
  | (_, child) :: rest => readableNode child && readableEntries rest

end

/-- A string is a clean slash-separated path: nonempty, and every
slash-separated segment is nonempty and is neither `.` nor `..` (so no
leading, trailing or doubled slashes).  `machine_alias` values and
`filepath.Rel` results for files under the home directory have this
shape. -/
def cleanRelPath (s : String) : Prop :=
  s.data ≠ [] ∧ ∀ seg ∈ splitSlash s.data, seg ≠ [] ∧ seg ≠ ['.'] ∧ seg ≠ ['.', '.']

instance (s : String) : Decidable (cleanRelPath s) := by
  unfold cleanRelPath; infer_instance

/-- The checksum-map entry `GetChecksums` produces for one path, if its
read succeeds. -/
def checksumEntry (crc : String → Except String Nat) (p : String) : Option (String × Nat) :=
  match crc p with
  | .ok c => some (p, c)
  | .error _ => none

/-- The collected error message `GetChecksums` produces for one path, if
its read fails. -/
def checksumError (crc : String → Except String Nat) (p : String) : Option String :=
  match crc p with
  | .ok _ => none
  | .error e => some ("unable to generate checksum of file [" ++ p ++ "]: " ++ e)

/-- The expansion of a single path spec, as `ExtractFilePathsFromList`
performs it. -/
def specExpansion (resolve : String → Option FSNode) (parentPath p : String) :
    Except String (List String) :=
  ExtractFilePaths resolve (goPathJoin [parentPath, p])

/-- The paths one spec contributes, if its expansion succeeds. -/
def specPaths (resolve : String → Option FSNode) (parentPath p : String) :
    Option (List String) :=
  match specExpansion resolve parentPath p with
  | .ok paths => some paths
  | .error _ => none

/-- The collected error message one spec contributes, if its expansion
fails. -/
def specError (resolve : String → Option FSNode) (parentPath p : String) : Option String :=
  match specExpansion resolve parentPath p with
  | .ok _ => none
  | .error e => some ("unable to extract file paths from [" ++ p ++ "]: " ++ e)

/-! ## Helper lemmas about the planner -/

/-- A successful planning pass returns lists whose concatenation is a
permutation of the input's paths. -/
theorem plan_ok_perm (o : Oracle) (b a parent : String)
    (rel : String → String → Except String String) :
    ∀ (cs : List (String × Nat)) (req ign : List String),
      GetPathsRequiredBackup o b a parent rel cs = .ok (req, ign) →
      (req ++ ign).Perm (cs.map Prod.fst) := by
  intro cs
  induction cs with
  | nil =>
    intro req ign h
    simp only [GetPathsRequiredBackup, Except.ok.injEq, Prod.mk.injEq] at h
    simp [← h.1, ← h.2]
  | cons pc rest ih =>
    intro req ign h
    obtain ⟨localPath, c⟩ := pc
    simp only [GetPathsRequiredBackup] at h
    split at h
    · exact absurd h (by simp)
    split at h
    · exact absurd h (by simp)
    rename_i required hreq
    split at h
    · exact absurd h (by simp)
    rename_i req2 ign2 hrec
    have hperm := ih req2 ign2 hrec
    cases required with
    | true =>
      simp only [if_true, reduceIte, Except.ok.injEq, Prod.mk.injEq] at h
      rcases h with ⟨rfl, rfl⟩
      simpa using hperm.cons localPath
    | false =>
      simp only [Bool.false_eq_true, reduceIte, Except.ok.injEq, Prod.mk.injEq] at h
      rcases h with ⟨rfl, rfl⟩
      simpa using List.perm_middle.trans (hperm.cons localPath)

/-- A successful planning pass classified every input entry: its relative
path resolved, `IsBackupRequired` answered, and the answer placed the
path in the corresponding output list. -/
theorem plan_ok_classifies (o : Oracle) (b a parent : String)
    (rel : String → String → Except String String) :
    ∀ (cs : List (String × Nat)) (req ign : List String),
      GetPathsRequiredBackup o b a parent rel cs = .ok (req, ign) →
      ∀ pc ∈ cs, ∃ r required,
        rel parent pc.1 = .ok r ∧
        IsBackupRequired o b (planObjectPath a r) pc.2 = .ok required ∧
        (required = true → pc.1 ∈ req) ∧ (required = false → pc.1 ∈ ign) := by
  intro cs
  induction cs with
  | nil => intro req ign _ pc hpc; exact absurd hpc (by simp)
  | cons hd rest ih =>
    intro req ign h pc hpc
    obtain ⟨localPath, c⟩ := hd
    simp only [GetPathsRequiredBackup] at h
    split at h
    · exact absurd h (by simp)
    rename_i r hrel
    split at h
    · exact absurd h (by simp)
    rename_i required hreq
    split at h
    · exact absurd h (by simp)
    rename_i req2 ign2 hrec
    cases required with
    | true =>
      simp only [if_true, reduceIte, Except.ok.injEq, Prod.mk.injEq] at h
      rcases h with ⟨rfl, rfl⟩
      rcases List.mem_cons.mp hpc with hpc1 | hpc2
      · subst hpc1
        exact ⟨r, true, hrel, hreq, fun _ => List.mem_cons_self _ _,
          fun hv => absurd hv (by decide)⟩
      · obtain ⟨r2, required2, h1, h2, h3, h4⟩ := ih req2 ign2 hrec pc hpc2
        exact ⟨r2, required2, h1, h2,
          fun hv => List.mem_cons_of_mem _ (h3 hv), h4⟩
    | false =>
      simp only [Bool.false_eq_true, reduceIte, Except.ok.injEq, Prod.mk.injEq] at h
      rcases h with ⟨rfl, rfl⟩
      rcases List.mem_cons.mp hpc with hpc1 | hpc2
      · subst hpc1
        exact ⟨r, false, hrel, hreq, fun hv => absurd hv (by decide),
          fun _ => List.mem_cons_self _ _⟩
      · obtain ⟨r2, required2, h1, h2, h3, h4⟩ := ih req2 ign2 hrec pc hpc2
        exact ⟨r2, required2, h1, h2, h3,
          fun hv => List.mem_cons_of_mem _ (h4 hv)⟩

/-- If every input entry is classified as not requiring backup, planning
returns an empty required list and all paths as ignored, in order. -/
theorem plan_all_ignored (o : Oracle) (b a parent : String)
    (rel : String → String → Except String String) :
    ∀ (cs : List (String × Nat)),
      (∀ pc ∈ cs, ∃ r, rel parent pc.1 = .ok r ∧
        IsBackupRequired o b (planObjectPath a r) pc.2 = .ok false) →
      GetPathsRequiredBackup o b a parent rel cs = .ok ([], cs.map Prod.fst) := by
  intro cs
  induction cs with
  | nil => intro _; rfl
  | cons hd rest ih =>
    intro hall
    obtain ⟨localPath, c⟩ := hd
    obtain ⟨r, hrel, hreq⟩ := hall (localPath, c) (List.mem_cons_self _ _)
    simp only at hrel hreq
    have hrest := ih (fun pc hpc => hall pc (List.mem_cons_of_mem _ hpc))
    simp only [GetPathsRequiredBackup]
    rw [hrel]
    simp [hreq, hrest]

/-! ## C1: the classification decision -/

/-- C1: For every local file considered by the planner, `IsBackupRequired`
decides exactly: remote object absent ⇒ required; present with a stored
checksum differing from the local CRC32 checksum ⇒ required; present with
a matching checksum ⇒ ignored. -/
theorem isBackupRequired_decision (o : Oracle) (bucket k : String) (c : Nat) :
    (o.exist k = .ok false → IsBackupRequired o bucket k c = .ok true) ∧
    (∀ r, o.exist k = .ok true → o.chk k = .ok r → c ≠ r →
      IsBackupRequired o bucket k c = .ok true) ∧
    (∀ r, o.exist k = .ok true → o.chk k = .ok r → c = r →
      IsBackupRequired o bucket k c = .ok false) := by
  refine ⟨fun h => ?_, fun r h1 h2 hne => ?_, fun r h1 h2 heq => ?_⟩
  · simp [IsBackupRequired, h]
  · simp [IsBackupRequired, h1, h2, bne_iff_ne, hne]
  · simp [IsBackupRequired, h1, h2, heq]

/-- Witness for C1: a store holding checksum 5 at key `m/a` makes a file
with local checksum 3 required, one with checksum 5 ignored, and a file at
the absent key `m/b` required. -/
theorem isBackupRequired_decision_witness :
    IsBackupRequired (oracleOfStore [("m/a", 5)]) "b" "m/a" 3 = .ok true ∧
    IsBackupRequired (oracleOfStore [("m/a", 5)]) "b" "m/a" 5 = .ok false ∧
    IsBackupRequired (oracleOfStore [("m/a", 5)]) "b" "m/b" 3 = .ok true :=
  ⟨(isBackupRequired_decision (oracleOfStore [("m/a", 5)]) "b" "m/a" 3).2.1 5 rfl rfl
      (by decide),
    (isBackupRequired_decision (oracleOfStore [("m/a", 5)]) "b" "m/a" 5).2.2 5 rfl rfl rfl,
    (isBackupRequired_decision (oracleOfStore [("m/a", 5)]) "b" "m/b" 3).1 rfl⟩

/-! ## C2: the plan partitions its input -/

/-- C2: For every input checksum map (modelled as an association list with
distinct keys, as a Go map has), a successful planning pass partitions the
input paths: each appears in `required` or `ignored`, none in both, and
the two lists together are a permutation of the input's paths. -/
theorem getPathsRequiredBackup_partitions (o : Oracle) (b a parent : String)
    (rel : String → String → Except String String) (cs : List (String × Nat))
    (req ign : List String) (hnd : (cs.map Prod.fst).Nodup)
    (h : GetPathsRequiredBackup o b a parent rel cs = .ok (req, ign)) :
    (∀ p, p ∈ cs.map Prod.fst ↔ (p ∈ req ∨ p ∈ ign)) ∧
    (∀ p, ¬(p ∈ req ∧ p ∈ ign)) ∧
    (req ++ ign).Perm (cs.map Prod.fst) := by
  have hperm := plan_ok_perm o b a parent rel cs req ign h
  refine ⟨fun p => ?_, fun p hp => ?_, hperm⟩
  · rw [← hperm.mem_iff, List.mem_append]
  · have hnd2 : (req ++ ign).Nodup := (hperm.nodup_iff).mpr hnd
    exact (List.nodup_append.mp hnd2).2.2 hp.1 hp.2

/-- Witness for C2: planning two files against a store holding one of them
partitions them into one required and one ignored path. -/
theorem getPathsRequiredBackup_partitions_witness :
    ((([("h/a", 5), ("h/b", 7)] : List (String × Nat)).map Prod.fst).Nodup ∧
      GetPathsRequiredBackup (oracleOfStore [("m/a", 5)]) "b" "m" "h"
        (fun _ p => .ok (p.drop 2)) [("h/a", 5), ("h/b", 7)] =
        .ok (["h/b"], ["h/a"])) ∧
    ((∀ p, p ∈ (([("h/a", 5), ("h/b", 7)] : List (String × Nat)).map Prod.fst) ↔
        (p ∈ ["h/b"] ∨ p ∈ ["h/a"])) ∧
      (∀ p, ¬(p ∈ ["h/b"] ∧ p ∈ ["h/a"])) ∧
      (["h/b"] ++ ["h/a"]).Perm ([("h/a", 5), ("h/b", 7)].map Prod.fst)) :=
  ⟨⟨by decide, by rfl⟩,
    getPathsRequiredBackup_partitions (oracleOfStore [("m/a", 5)]) "b" "m" "h"
      (fun _ p => .ok (p.drop 2)) [("h/a", 5), ("h/b", 7)] ["h/b"] ["h/a"]
      (by decide) (by rfl)⟩

/-! ## C6: fingerprinting is all-or-nothing -/

/-- The accumulating pass of `GetChecksums`, characterised: the map part
collects an entry per readable path and the error part a message per
unreadable path, both in input order. -/
theorem getChecksums_foldl (crc : String → Except String Nat) :
    ∀ (paths : List String) (m0 : List (String × Nat)) (e0 : List String),
      (paths.foldl
        (fun acc localPath =>
          match crc localPath with
          | .error e =>
            (acc.1, acc.2 ++ ["unable to generate checksum of file [" ++ localPath ++ "]: " ++ e])
          | .ok checksum => (acc.1 ++ [(localPath, checksum)], acc.2))
        (m0, e0)) =
      (m0 ++ paths.filterMap (checksumEntry crc),
        e0 ++ paths.filterMap (checksumError crc)) := by
  intro paths
  induction paths with
  | nil => intro m0 e0; simp
  | cons p rest ih =>
    intro m0 e0
    simp only [List.foldl_cons, List.filterMap_cons]
    cases hc : crc p with
    | error e => simp [checksumEntry, checksumError, hc, ih]
    | ok c => simp [checksumEntry, checksumError, hc, ih]

/-- C6: Fingerprinting is all-or-nothing.  If every input file reads
successfully, `GetChecksums` returns a checksum entry for every input
path and no error.  If any read fails, it still attempts every file,
returns the joined error containing the message for each failing file,
and returns no checksum map at all. -/
theorem getChecksums_all_or_nothing (crc : String → Except String Nat)
    (paths : List String) :
    ((∀ p ∈ paths, ∃ c, crc p = .ok c) →
      GetChecksums crc paths = .ok (paths.filterMap (checksumEntry crc)) ∧
      ∀ p ∈ paths, ∃ c, crc p = .ok c ∧ (p, c) ∈ paths.filterMap (checksumEntry crc)) ∧
    ((∃ p ∈ paths, ∃ e, crc p = .error e) →
      GetChecksums crc paths = .error (joinErrs (paths.filterMap (checksumError crc))) ∧
      ∀ p ∈ paths, ∀ e, crc p = .error e →
        ("unable to generate checksum of file [" ++ p ++ "]: " ++ e) ∈
          paths.filterMap (checksumError crc)) := by
  constructor
  · intro hok
    have herr : paths.filterMap (checksumError crc) = [] := by
      apply List.filterMap_eq_nil_iff.mpr
      intro p hp
      obtain ⟨c, hc⟩ := hok p hp
      simp [checksumError, hc]
    constructor
    · simp only [GetChecksums, getChecksums_foldl, List.nil_append, herr]
      simp
    · intro p hp
      obtain ⟨c, hc⟩ := hok p hp
      exact ⟨c, hc, List.mem_filterMap.mpr ⟨p, hp, by simp [checksumEntry, hc]⟩⟩
  · intro ⟨p, hp, e, he⟩
    have hmem : ("unable to generate checksum of file [" ++ p ++ "]: " ++ e) ∈
        paths.filterMap (checksumError crc) :=
      List.mem_filterMap.mpr ⟨p, hp, by simp [checksumError, he]⟩
    have herr : paths.filterMap (checksumError crc) ≠ [] := List.ne_nil_of_mem hmem
    constructor
    · simp only [GetChecksums, getChecksums_foldl, List.nil_append]
      simp [herr]
    · intro q hq e2 he2
      exact List.mem_filterMap.mpr ⟨q, hq, by simp [checksumError, he2]⟩

/-- Witness for C6: with `a` readable (checksum 5) and `bad1`, `bad2`
unreadable, `GetChecksums` reports both failures joined and returns no
map; with only `a`, it returns its entry. -/
theorem getChecksums_all_or_nothing_witness :
    (GetChecksums (fun p => if p = "a" then .ok 5 else .error "denied") ["a"] =
        .ok [("a", 5)]) ∧
    (GetChecksums (fun p => if p = "a" then .ok 5 else .error "denied")
        ["a", "bad1", "bad2"] =
      .error ("unable to generate checksum of file [bad1]: denied\n" ++
        "unable to generate checksum of file [bad2]: denied")) := by
  constructor
  · have h := (getChecksums_all_or_nothing
      (fun p => if p = "a" then .ok 5 else .error "denied") ["a"]).1
      (by intro p hp; rw [List.mem_singleton.mp hp]; exact ⟨5, rfl⟩)
    exact h.1
  · have h := (getChecksums_all_or_nothing
      (fun p => if p = "a" then .ok 5 else .error "denied") ["a", "bad1", "bad2"]).2
      ⟨"bad1", by decide, "denied", rfl⟩
    exact h.1

/-! ## C5: path expansion collects per-spec failures -/

/-- The accumulating pass of `ExtractFilePathsFromList`, characterised:
the path part concatenates each successful spec's expansion and the error
part collects a message per failing spec, both in input order. -/
theorem extractList_foldl (resolve : String → Option FSNode) (parent : String) :
    ∀ (specs : List String) (m0 e0 : List String),
      (specs.foldl
        (fun acc p =>
          match ExtractFilePaths resolve (goPathJoin [parent, p]) with
          | .error e =>
            (acc.1, acc.2 ++ ["unable to extract file paths from [" ++ p ++ "]: " ++ e])
          | .ok paths => (acc.1 ++ paths, acc.2))
        (m0, e0)) =
      (m0 ++ (specs.filterMap (specPaths resolve parent)).flatten,
        e0 ++ specs.filterMap (specError resolve parent)) := by
  intro specs
  induction specs with
  | nil => intro m0 e0; simp
  | cons p rest ih =>
    intro m0 e0
    simp only [List.foldl_cons, List.filterMap_cons]
    cases hc : ExtractFilePaths resolve (goPathJoin [parent, p]) with
    | error e =>
      simp [specPaths, specError, specExpansion, hc, ih]
    | ok paths =>
      simp [specPaths, specError, specExpansion, hc, ih]

/-- C5: When one or more path specs fail to resolve,
`ExtractFilePathsFromList` still attempts every spec and returns a single
aggregate error joining, in order, one message per failing spec — each
identifying its path — and it never drops a failing spec in favour of an
earlier failure; when every spec succeeds, the expansions of all specs
are returned concatenated. -/
theorem extractFilePathsFromList_collects (resolve : String → Option FSNode)
    (parent : String) (specs : List String) :
    ((∀ p ∈ specs, ∃ l, specExpansion resolve parent p = .ok l) →
      ExtractFilePathsFromList resolve parent specs =
        .ok (specs.filterMap (specPaths resolve parent)).flatten) ∧
    ((∃ p ∈ specs, ∃ e, specExpansion resolve parent p = .error e) →
      ExtractFilePathsFromList resolve parent specs =
        .error (joinErrs (specs.filterMap (specError resolve parent))) ∧
      ∀ p ∈ specs, ∀ e, specExpansion resolve parent p = .error e →
        ("unable to extract file paths from [" ++ p ++ "]: " ++ e) ∈
          specs.filterMap (specError resolve parent)) := by
  constructor
  · intro hok
    have herr : specs.filterMap (specError resolve parent) = [] := by
      apply List.filterMap_eq_nil_iff.mpr
      intro p hp
      obtain ⟨l, hl⟩ := hok p hp
      simp [specError, hl]
    simp only [ExtractFilePathsFromList, extractList_foldl, List.nil_append, herr]
    simp
  · intro ⟨p, hp, e, he⟩
    have hmem : ("unable to extract file paths from [" ++ p ++ "]: " ++ e) ∈
        specs.filterMap (specError resolve parent) :=
      List.mem_filterMap.mpr ⟨p, hp, by simp [specError, he]⟩
    have herr : specs.filterMap (specError resolve parent) ≠ [] :=
      List.ne_nil_of_mem hmem
    constructor
    · simp only [ExtractFilePathsFromList, extractList_foldl, List.nil_append]
      simp [herr]
    · intro q hq e2 he2
      exact List.mem_filterMap.mpr ⟨q, hq, by simp [specError, he2]⟩

/-- Witness for C5: expanding `[ok, missing, gone]` over a filesystem
holding only `h/ok` reports both missing specs in one aggregate error. -/
theorem extractFilePathsFromList_collects_witness :
    ExtractFilePathsFromList (fun p => if p = "h/ok" then some (.file .regular) else none)
        "h" ["ok", "missing", "gone"] =
      .error ("unable to extract file paths from [missing]: path [h/missing] does not exist\n" ++
        "unable to extract file paths from [gone]: path [h/gone] does not exist") := by
  have h := (extractFilePathsFromList_collects
    (fun p => if p = "h/ok" then some (.file .regular) else none) "h"
    ["ok", "missing", "gone"]).2
    ⟨"missing", by decide, "path [h/missing] does not exist", by rfl⟩
  exact h.1

/-! ## C7: planning is fail-fast -/

/-- C7: If a remote-oracle query fails for a single file, the entire
planning pass returns only an error naming that file: the files after it
are not examined (the result is the same for every continuation of the
input), and no required or ignored lists are produced. -/
theorem getPathsRequiredBackup_fail_fast (o : Oracle) (b a parent : String)
    (rel : String → String → Except String String) (p : String) (c : Nat) (r e : String)
    (hrel : rel parent p = .ok r)
    (hfail : IsBackupRequired o b (planObjectPath a r) c = .error e) :
    ∀ pre : List (String × Nat),
      (∀ q ∈ pre, ∃ rq bq, rel parent q.1 = .ok rq ∧
        IsBackupRequired o b (planObjectPath a rq) q.2 = .ok bq) →
      ∀ post : List (String × Nat),
        GetPathsRequiredBackup o b a parent rel (pre ++ (p, c) :: post) =
          .error ("unable to determine if backup is required for file [" ++ p ++ "]: " ++ e) := by
  intro pre
  induction pre with
  | nil =>
    intro _ post
    simp only [List.nil_append, GetPathsRequiredBackup]
    rw [hrel]
    simp [hfail]
  | cons q pre2 ih =>
    intro hpre post
    obtain ⟨qp, qc⟩ := q
    obtain ⟨rq, bq, hrq, hbq⟩ := hpre (qp, qc) (List.mem_cons_self _ _)
    simp only at hrq hbq
    have ih2 := ih (fun q2 hq2 => hpre q2 (List.mem_cons_of_mem _ hq2)) post
    simp only [List.cons_append, GetPathsRequiredBackup]
    rw [hrq]
    simp [hbq, ih2]

/-- Witness for C7: a store whose existence query fails for key `m/bad`
makes planning of `[a, bad, z]` abort with an error naming `h/bad`, with
the file `h/z` after it never examined. -/
theorem getPathsRequiredBackup_fail_fast_witness :
    GetPathsRequiredBackup
        ⟨fun k => if k = "m/bad" then .error "boom" else .ok false, fun _ => .error "x"⟩
        "b" "m" "h" (fun _ p => .ok (p.drop 2)) [("h/a", 1), ("h/bad", 2), ("h/z", 3)] =
      .error ("unable to determine if backup is required for file [h/bad]: " ++
        "unable to determine if object [m/bad] exists in bucket [gs://b]: boom") := by
  have h := getPathsRequiredBackup_fail_fast
    ⟨fun k => if k = "m/bad" then .error "boom" else .ok false, fun _ => .error "x"⟩
    "b" "m" "h" (fun _ p => .ok (p.drop 2)) "h/bad" 2 "bad"
    "unable to determine if object [m/bad] exists in bucket [gs://b]: boom" rfl rfl
    [("h/a", 1)]
    (by
      intro q hq
      rw [List.mem_singleton.mp hq]
      exact ⟨"a", true, rfl, rfl⟩)
    [("h/z", 3)]
  exact h

/-! ## C4: what path expansion includes and excludes -/

/-- Joint helper: on a subtree whose directories are all readable,
extraction succeeds and returns exactly the paths `gatherNode` collects
(symbolic links and sockets skipped, every other non-directory entry
included, directories recursed into). -/
theorem extract_eq_gather_all :
    (∀ (p : String) (n : FSNode), readableNode n = true →
      extractNode p n = .ok (gatherNode p n)) ∧
    (∀ (p : String) (es : List (String × FSNode)), readableEntries es = true →
      extractEntries p es = .ok (gatherEntries p es)) := by
  refine extractNode.mutual_induct
    (fun p n => readableNode n = true → extractNode p n = .ok (gatherNode p n))
    (fun p es => readableEntries es = true → extractEntries p es = .ok (gatherEntries p es))
    ?_ ?_ ?_ ?_ ?_ ?_ ?_ ?_ ?_ ?_ ?_
  · intro lp t _
    rfl
  · intro lp msg h
    exact absurd h (by simp [readableNode])
  · intro lp entries ih h
    have h2 : readableEntries entries = true := by simpa [readableNode] using h
    simp only [extractNode, gatherNode]
    exact ih h2
  · intro lp _
    rfl
  · intro lp name rest ih h
    simp only [readableEntries, readableNode, Bool.true_and] at h
    simp only [extractEntries, gatherEntries]
    exact ih h
  · intro lp name rest ih h
    simp only [readableEntries, readableNode, Bool.true_and] at h
    simp only [extractEntries, gatherEntries]
    exact ih h
  · intro lp name rest t hns hnsock e herr ih h
    simp only [readableEntries, readableNode, Bool.true_and] at h
    have := ih h
    rw [herr] at this
    exact absurd this (by simp)
  · intro lp name rest t hns hnsock tail htail ih h
    simp only [readableEntries, readableNode, Bool.true_and] at h
    cases t
    case symlink => exact absurd rfl hns
    case socket => exact absurd rfl hnsock
    all_goals
      simp only [extractEntries, gatherEntries]
      rw [ih h]
  · intro lp name child rest e herr hns hnsock hnfile ih h
    simp only [readableEntries, Bool.and_eq_true] at h
    have := ih h.1
    rw [herr] at this
    exact absurd this (by simp)
  · intro lp name child rest tail hchild e herr hns hnsock hnfile ih1 ih2 h
    simp only [readableEntries, Bool.and_eq_true] at h
    have := ih2 h.2
    rw [herr] at this
    exact absurd this (by simp)
  · intro lp name child rest tail hchild tail2 htail hns hnsock hnfile ih1 ih2 h
    simp only [readableEntries, Bool.and_eq_true] at h
    cases child with
    | file t => exact absurd rfl (hnfile t)
    | unreadableDir m => exact absurd h.1 (by simp [readableNode])
    | dir es =>
      simp only [extractEntries, gatherEntries]
      rw [ih1 h.1, ih2 h.2]

/-- C4 (counterexample to the claim as stated): the claim says named
pipes are excluded from expansion, but the `switch` in `ExtractFilePaths`
only skips symbolic links and sockets, so a named pipe falls through to
the default branch and is included: a directory with a single named pipe
expands to that pipe's path, not to the empty list. -/
theorem extractFilePaths_namedPipe_included :
    extractNode "d" (.dir [("p", .file .namedPipe)]) = .ok ["d/p"] ∧
    (["d/p"] : List String) ≠ [] :=
  ⟨rfl, by simp⟩

/-- C4 (amended): For every readable directory passed to path expansion,
the returned list is exactly `gatherEntries`: every regular file is
included, directly and through recursion into subdirectories; symbolic
links and sockets are silently skipped without error; every other entry —
including named pipes and devices and other special types — is included
like a regular file. -/
theorem extractFilePaths_directory_amended (p : String)
    (es : List (String × FSNode)) (h : readableEntries es = true) :
    extractNode p (.dir es) = .ok (gatherEntries p es) := by
  have h2 : readableNode (.dir es) = true := by simpa [readableNode] using h
  simpa [gatherNode] using extract_eq_gather_all.1 p (.dir es) h2

/-- Witness for C4 (amended): a directory with one regular file, one
symlink and one socket expands to exactly the regular file. -/
theorem extractFilePaths_directory_amended_witness :
    readableEntries [("f", FSNode.file .regular), ("s", FSNode.file .symlink),
        ("k", FSNode.file .socket)] = true ∧
    extractNode "d" (.dir [("f", FSNode.file .regular), ("s", FSNode.file .symlink),
        ("k", FSNode.file .socket)]) = .ok ["d/f"] :=
  ⟨rfl, extractFilePaths_directory_amended "d"
    [("f", FSNode.file .regular), ("s", FSNode.file .symlink),
      ("k", FSNode.file .socket)] rfl⟩

/-! ## C10: an error inside one spec's tree aborts that whole spec -/

/-- C10: Inside the expansion of a single directory spec, an enumeration
error in any subdirectory aborts the whole spec's recursive enumeration:
whatever entries preceded the failing one (any prefix that expanded to
some list `l`), the result for the whole entry list is only the error —
the gathered sibling files are discarded — and it does not depend on the
entries after the failing one, which are never examined.  The
collect-then-join policy applies only across top-level path specs. -/
theorem extractEntries_inner_abort (p nm msg : String) :
    ∀ (pre : List (String × FSNode)) (l : List String),
      extractEntries p pre = .ok l →
      ∀ post : List (String × FSNode),
        extractEntries p (pre ++ (nm, .unreadableDir msg) :: post) =
          .error ("unable to read directory [" ++ goPathJoin [p, nm] ++ "]: " ++ msg) := by
  intro pre
  induction pre with
  | nil =>
    intro l _ post
    rfl
  | cons q pre2 ih =>
    intro l h post
    obtain ⟨qn, qc⟩ := q
    simp only [List.cons_append]
    cases qc with
    | file t =>
      cases t <;> simp only [extractEntries] at h ⊢
      case symlink => exact ih l h post
      case socket => exact ih l h post
      all_goals
        split at h
        · exact absurd h (by simp)
        · rename_i tail htail
          rw [ih tail htail post]
    | dir es =>
      simp only [extractEntries] at h ⊢
      split at h
      · exact absurd h (by simp)
      rename_i fid hfid
      split at h
      · exact absurd h (by simp)
      rename_i tail htail
      rw [ih tail htail post]
    | unreadableDir m =>
      simp only [extractEntries, extractNode] at h
      exact absurd h (by simp)

/-- Witness for C10: with a good sibling before and one after, an
unreadable subdirectory makes the whole directory expansion fail,
discarding the sibling `d/a` already gathered. -/
theorem extractEntries_inner_abort_witness :
    extractEntries "d" [("a", FSNode.file .regular), ("bad", FSNode.unreadableDir "denied"),
        ("z", FSNode.file .regular)] =
      .error "unable to read directory [d/bad]: denied" :=
  extractEntries_inner_abort "d" "bad" "denied" [("a", FSNode.file .regular)]
    ["d/a"] rfl [("z", FSNode.file .regular)]

/-! ## Helper lemmas about the upload loop and the fingerprint map -/

/-- A dry-run upload loop that succeeds leaves the store untouched, and
its only work was resolving each required path's relative path. -/
theorem uploadLoop_true_eq (crc : String → Except String Nat)
    (b a hd : String) (rel : String → String → Except String String) :
    ∀ (req : List String) (s s2 : Store),
      uploadLoop true crc b a hd rel s req = .ok s2 →
      s2 = s ∧ ∀ q ∈ req, ∃ r, rel hd q = .ok r := by
  intro req
  induction req with
  | nil =>
    intro s s2 h
    simp only [uploadLoop, Except.ok.injEq] at h
    exact ⟨h.symm, by simp⟩
  | cons q rest ih =>
    intro s s2 h
    simp only [uploadLoop] at h
    split at h
    · exact absurd h (by simp)
    rename_i r hr
    simp only [if_true, reduceIte] at h
    obtain ⟨hs, hrest⟩ := ih s s2 h
    refine ⟨hs, fun q2 hq2 => ?_⟩
    rcases List.mem_cons.mp hq2 with hq2 | hq2
    · exact ⟨r, hq2 ▸ hr⟩
    · exact hrest q2 hq2

/-- If every required path's relative path resolves, a dry-run upload
loop succeeds and returns the store unchanged. -/
theorem uploadLoop_true_of_rel_ok (crc : String → Except String Nat)
    (b a hd : String) (rel : String → String → Except String String) :
    ∀ (req : List String), (∀ q ∈ req, ∃ r, rel hd q = .ok r) →
      ∀ s : Store, uploadLoop true crc b a hd rel s req = .ok s := by
  intro req
  induction req with
  | nil => intro _ s; rfl
  | cons q rest ih =>
    intro hok s
    obtain ⟨r, hr⟩ := hok q (List.mem_cons_self _ _)
    simp only [uploadLoop]
    rw [hr]
    simpa using ih (fun q2 hq2 => hok q2 (List.mem_cons_of_mem _ hq2)) s

/-- A committed upload: the read succeeded and the store gained the
object's entry at the front. -/
theorem copyFileToBucket_ok (crc : String → Except String Nat) (s : Store)
    (a r q : String) (s2 : Store) (h : CopyFileToBucket crc s a r q = .ok s2) :
    ∃ c, crc q = .ok c ∧ s2 = (uploadObjectPath a r, c) :: s := by
  unfold CopyFileToBucket at h
  split at h
  · exact absurd h (by simp)
  rename_i c hc
  exact ⟨c, hc, by simpa using h.symm⟩

/-- A real upload loop that succeeds resolved and read every required
path. -/
theorem uploadLoop_false_ok_facts (crc : String → Except String Nat)
    (b a hd : String) (rel : String → String → Except String String) :
    ∀ (req : List String) (s s2 : Store),
      uploadLoop false crc b a hd rel s req = .ok s2 →
      ∀ q ∈ req, ∃ r c, rel hd q = .ok r ∧ crc q = .ok c := by
  intro req
  induction req with
  | nil => intro s s2 _; simp
  | cons q rest ih =>
    intro s s2 h
    simp only [uploadLoop, Bool.false_eq_true, reduceIte] at h
    split at h
    · exact absurd h (by simp)
    rename_i r hr
    split at h
    · exact absurd h (by simp)
    rename_i s3 hcopy
    obtain ⟨c, hc, rfl⟩ := copyFileToBucket_ok crc s a r q s3 hcopy
    intro q2 hq2
    rcases List.mem_cons.mp hq2 with hq2 | hq2
    · exact ⟨r, c, hq2 ▸ hr, hq2 ▸ hc⟩
    · exact ih _ _ h q2 hq2

/-- If every required path resolves and reads, a real upload loop
succeeds from any store. -/
theorem uploadLoop_false_total (crc : String → Except String Nat)
    (b a hd : String) (rel : String → String → Except String String) :
    ∀ (req : List String),
      (∀ q ∈ req, (∃ r, rel hd q = .ok r) ∧ ∃ c, crc q = .ok c) →
      ∀ s : Store, ∃ s2, uploadLoop false crc b a hd rel s req = .ok s2 := by
  intro req
  induction req with
  | nil => intro _ s; exact ⟨s, rfl⟩
  | cons q rest ih =>
    intro hok s
    obtain ⟨⟨r, hr⟩, c, hc⟩ := hok q (List.mem_cons_self _ _)
    obtain ⟨s2, hs2⟩ := ih (fun q2 hq2 => hok q2 (List.mem_cons_of_mem _ hq2))
      ((uploadObjectPath a r, c) :: s)
    refine ⟨s2, ?_⟩
    simp only [uploadLoop, Bool.false_eq_true, reduceIte]
    rw [hr]
    have hcb : CopyFileToBucket crc s a r q = .ok ((uploadObjectPath a r, c) :: s) := by
      unfold CopyFileToBucket
      rw [hc]
    simp only [hcb]
    exact hs2

/-- A successful `GetChecksums` returns exactly the entries of the
readable paths, in order. -/
theorem getChecksums_ok_eq (crc : String → Except String Nat)
    (paths : List String) (m : List (String × Nat))
    (h : GetChecksums crc paths = .ok m) :
    m = paths.filterMap (checksumEntry crc) := by
  simp only [GetChecksums, getChecksums_foldl, List.nil_append] at h
  split at h
  · exact (Except.ok.injEq _ _ ▸ h).symm
  · exact absurd h (by simp)

/-- Every entry of the fingerprint map is a path of the input whose read
succeeded with that checksum. -/
theorem checksumEntry_mem (crc : String → Except String Nat)
    (paths : List String) (pc : String × Nat)
    (h : pc ∈ paths.filterMap (checksumEntry crc)) :
    pc.1 ∈ paths ∧ crc pc.1 = .ok pc.2 := by
  obtain ⟨p, hp, hent⟩ := List.mem_filterMap.mp h
  unfold checksumEntry at hent
  split at hent
  · rename_i c hc
    cases hent
    exact ⟨hp, hc⟩
  · exact absurd hent (by simp)

/-- The fingerprint map's keys form a sublist of the input paths. -/
theorem checksumEntry_keys_sublist (crc : String → Except String Nat) :
    ∀ paths : List String,
      ((paths.filterMap (checksumEntry crc)).map Prod.fst).Sublist paths := by
  intro paths
  induction paths with
  | nil => simp
  | cons p rest ih =>
    simp only [List.filterMap_cons]
    cases hc : crc p with
    | error e =>
      simp only [checksumEntry, hc]
      exact ih.cons p
    | ok c =>
      simp only [checksumEntry, hc, List.map_cons]
      exact ih.cons₂ p

/-! ## C3: dry-run computes the same partition and writes nothing -/

/-- C3: With identical local and remote state, the orchestrator under
`--dry-run` computes exactly the required/ignored partition it computes
without the flag, and a successful dry-run leaves the remote store
unchanged — no object is created or modified.  Moreover a dry-run
succeeds exactly when the real run does, with the same partition. -/
theorem runBackup_dryRun_frame (b a hd : String) (resolve : String → Option FSNode)
    (rel : String → String → Except String String) (crc : String → Except String Nat)
    (store : Store) (paths : List String) :
    (∀ req ign st, runBackup true b a hd resolve rel crc store paths = .ok (req, ign, st) →
      st = store) ∧
    (∀ req ign st, runBackup false b a hd resolve rel crc store paths = .ok (req, ign, st) →
      runBackup true b a hd resolve rel crc store paths = .ok (req, ign, store)) ∧
    (∀ req ign st, runBackup true b a hd resolve rel crc store paths = .ok (req, ign, st) →
      ∃ st2, runBackup false b a hd resolve rel crc store paths = .ok (req, ign, st2)) := by
  refine ⟨fun req ign st h => ?_, fun req ign st h => ?_, fun req ign st h => ?_⟩
  · simp only [runBackup] at h
    split at h
    · exact absurd h (by simp)
    split at h
    · exact absurd h (by simp)
    split at h
    · exact absurd h (by simp)
    rename_i req2 ign2 hplan
    split at h
    · exact absurd h (by simp)
    rename_i st2 hupl
    simp only [Except.ok.injEq, Prod.mk.injEq] at h
    rw [← h.2.2]
    exact (uploadLoop_true_eq crc b a hd rel req2 store st2 hupl).1
  · simp only [runBackup] at h ⊢
    split at h
    · exact absurd h (by simp)
    rename_i lfp hext
    split at h
    · exact absurd h (by simp)
    rename_i m hchk
    split at h
    · exact absurd h (by simp)
    rename_i req2 ign2 hplan
    split at h
    · exact absurd h (by simp)
    rename_i st2 hupl
    simp only [Except.ok.injEq, Prod.mk.injEq] at h
    have hrel : ∀ q ∈ req2, ∃ r, rel hd q = .ok r := by
      intro q hq
      obtain ⟨r, c, h1, h2⟩ := uploadLoop_false_ok_facts crc b a hd rel req2 store st2 hupl q hq
      exact ⟨r, h1⟩
    rw [uploadLoop_true_of_rel_ok crc b a hd rel req2 hrel store]
    rw [h.1, h.2.1]
  · simp only [runBackup] at h ⊢
    split at h
    · exact absurd h (by simp)
    rename_i lfp hext
    split at h
    · exact absurd h (by simp)
    rename_i m hchk
    split at h
    · exact absurd h (by simp)
    rename_i req2 ign2 hplan
    split at h
    · exact absurd h (by simp)
    rename_i st2 hupl
    simp only [Except.ok.injEq, Prod.mk.injEq] at h
    have hrel := (uploadLoop_true_eq crc b a hd rel req2 store st2 hupl).2
    have hcrc : ∀ q ∈ req2, (∃ r, rel hd q = .ok r) ∧ ∃ c, crc q = .ok c := by
      intro q hq
      refine ⟨hrel q hq, ?_⟩
      have hqm : q ∈ m.map Prod.fst :=
        (plan_ok_perm (oracleOfStore store) b a hd rel m req2 ign2 hplan).mem_iff.mp
          (List.mem_append.mpr (Or.inl hq))
      obtain ⟨pc, hpc, rfl⟩ := List.mem_map.mp hqm
      have := checksumEntry_mem crc lfp pc
        ((getChecksums_ok_eq crc lfp m hchk) ▸ hpc)
      exact ⟨pc.2, this.2⟩
    obtain ⟨st3, hst3⟩ := uploadLoop_false_total crc b a hd rel req2 hcrc store
    refine ⟨st3, ?_⟩
    rw [hst3]
    rw [h.1, h.2.1]

/-- Witness for C3: the spec's end-to-end example — one file `a.txt` with
checksum 0x1234 and an empty remote store.  The real run uploads to
`m/a.txt`; the dry-run returns the same partition and the unchanged
(empty) store. -/
theorem runBackup_dryRun_frame_witness :
    runBackup false "b" "m" "h"
        (fun p => if p = "h/a.txt" then some (.file .regular) else none)
        (fun _ p => .ok (p.drop 2)) (fun _ => .ok 4660) [] ["a.txt"] =
      .ok (["h/a.txt"], [], [("m/a.txt", 4660)]) ∧
    runBackup true "b" "m" "h"
        (fun p => if p = "h/a.txt" then some (.file .regular) else none)
        (fun _ p => .ok (p.drop 2)) (fun _ => .ok 4660) [] ["a.txt"] =
      .ok (["h/a.txt"], [], []) :=
  ⟨rfl,
    (runBackup_dryRun_frame "b" "m" "h"
      (fun p => if p = "h/a.txt" then some (.file .regular) else none)
      (fun _ p => .ok (p.drop 2)) (fun _ => .ok 4660) [] ["a.txt"]).2.1
      ["h/a.txt"] [] [("m/a.txt", 4660)] rfl⟩

/-! ## C8: running twice uploads nothing the second time -/

/-- Keys not uploaded by a successful upload loop keep their stored
checksum. -/
theorem uploadLoop_lookup_other (crc : String → Except String Nat)
    (b a hd : String) (rel : String → String → Except String String) :
    ∀ (req : List String) (s s2 : Store),
      uploadLoop false crc b a hd rel s req = .ok s2 →
      ∀ k : String, (∀ q ∈ req, ∀ r, rel hd q = .ok r → uploadObjectPath a r ≠ k) →
      List.lookup k s2 = List.lookup k s := by
  intro req
  induction req with
  | nil =>
    intro s s2 h k _
    simp only [uploadLoop, Except.ok.injEq] at h
    rw [← h]
  | cons q rest ih =>
    intro s s2 h k hk
    simp only [uploadLoop, Bool.false_eq_true, reduceIte] at h
    split at h
    · exact absurd h (by simp)
    rename_i r hr
    split at h
    · exact absurd h (by simp)
    rename_i s3 hcopy
    obtain ⟨c, hc, rfl⟩ := copyFileToBucket_ok crc s a r q s3 hcopy
    have h2 := ih _ _ h k (fun q2 hq2 => hk q2 (List.mem_cons_of_mem _ hq2))
    rw [h2]
    have hne : uploadObjectPath a r ≠ k := hk q (List.mem_cons_self _ _) r hr
    simp [List.lookup, beq_eq_false_iff_ne.mpr (Ne.symm hne)]

/-- A path uploaded by a successful upload loop has its local checksum
stored at its object key afterwards, provided the uploaded paths are
distinct and their keys collide only for equal paths. -/
theorem uploadLoop_lookup_self (crc : String → Except String Nat)
    (b a hd : String) (rel : String → String → Except String String) :
    ∀ (req : List String) (s s2 : Store),
      uploadLoop false crc b a hd rel s req = .ok s2 →
      req.Nodup →
      (∀ q1 ∈ req, ∀ q2 ∈ req, ∀ r1 r2, rel hd q1 = .ok r1 → rel hd q2 = .ok r2 →
        uploadObjectPath a r1 = uploadObjectPath a r2 → q1 = q2) →
      ∀ q ∈ req, ∀ r c, rel hd q = .ok r → crc q = .ok c →
        List.lookup (uploadObjectPath a r) s2 = some c := by
  intro req
  induction req with
  | nil =>
    intro s s2 _ _ _ q hq
    exact absurd hq (by simp)
  | cons q0 rest ih =>
    intro s s2 h hnd hinj q hq r c hrq hcq
    simp only [uploadLoop, Bool.false_eq_true, reduceIte] at h
    split at h
    · exact absurd h (by simp)
    rename_i r0 hr0
    split at h
    · exact absurd h (by simp)
    rename_i s3 hcopy
    obtain ⟨c0, hc0, rfl⟩ := copyFileToBucket_ok crc s a r0 q0 s3 hcopy
    rcases List.mem_cons.mp hq with rfl | hq2
    · have hr : r = r0 := by rw [hrq] at hr0; exact (Except.ok.injEq _ _ ▸ hr0)
      have hc : c = c0 := by rw [hcq] at hc0; exact (Except.ok.injEq _ _ ▸ hc0)
      subst hr hc
      have hother : ∀ q2 ∈ rest, ∀ r2, rel hd q2 = .ok r2 →
          uploadObjectPath a r2 ≠ uploadObjectPath a r := by
        intro q2 hq2 r2 hr2 heq
        have : q2 = q := hinj q2 (List.mem_cons_of_mem _ hq2) q
          (List.mem_cons_self _ _) r2 r hr2 hrq heq
        rw [this] at hq2
        exact (List.nodup_cons.mp hnd).1 hq2
      rw [uploadLoop_lookup_other crc b a hd rel rest _ s2 h _ hother]
      simp [List.lookup]
    · exact ih _ _ h (List.nodup_cons.mp hnd).2
        (fun q1 h1 q2 h2 => hinj q1 (List.mem_cons_of_mem _ h1) q2 (List.mem_cons_of_mem _ h2))
        q hq2 r c hrq hcq

/-- `IsBackupRequired` over a healthy store only depends on the store's
entry at the queried key. -/
theorem isBackupRequired_store_congr (s1 s2 : Store) (b k : String) (c : Nat)
    (h : List.lookup k s1 = List.lookup k s2) :
    IsBackupRequired (oracleOfStore s1) b k c = IsBackupRequired (oracleOfStore s2) b k c := by
  simp only [IsBackupRequired, oracleOfStore, h]

/-- A store holding exactly the local checksum at the key classifies the
file as not requiring backup. -/
theorem isBackupRequired_present_eq (st : Store) (b k : String) (c : Nat)
    (h : List.lookup k st = some c) :
    IsBackupRequired (oracleOfStore st) b k c = .ok false := by
  simp [IsBackupRequired, oracleOfStore, h]

/-- C8: Running the full backup twice in succession with unchanged local
state, all first-run uploads having succeeded, makes the second run
classify every file as ignored: it returns an empty required list, all
fingerprinted paths as ignored (a permutation of the first run's
partition), and leaves the store as the first run left it.  The local
file paths are assumed distinct, and distinct files are assumed to get
distinct object keys (true of `filepath.Rel` under one home directory). -/
theorem runBackup_idempotent (b a hd : String) (resolve : String → Option FSNode)
    (rel : String → String → Except String String) (crc : String → Except String Nat)
    (store : Store) (paths : List String) (req ign : List String) (st1 : Store)
    (lfp : List String)
    (hext : ExtractFilePathsFromList resolve hd paths = .ok lfp)
    (hnd : lfp.Nodup)
    (hinj : ∀ p ∈ lfp, ∀ q ∈ lfp, ∀ rp rq, rel hd p = .ok rp → rel hd q = .ok rq →
      planObjectPath a rp = planObjectPath a rq → p = q)
    (h1 : runBackup false b a hd resolve rel crc store paths = .ok (req, ign, st1)) :
    ∃ ign2, runBackup false b a hd resolve rel crc st1 paths = .ok ([], ign2, st1) ∧
      ign2.Perm (req ++ ign) := by
  simp only [runBackup] at h1
  split at h1
  · exact absurd h1 (by simp)
  rename_i lfp2 hext2
  rw [hext] at hext2
  have hl : lfp2 = lfp := (Except.ok.injEq _ _ ▸ hext2).symm
  subst hl
  split at h1
  · exact absurd h1 (by simp)
  rename_i m hchk
  split at h1
  · exact absurd h1 (by simp)
  rename_i req2 ign2 hplan
  split at h1
  · exact absurd h1 (by simp)
  rename_i st2 hupl
  simp only [Except.ok.injEq, Prod.mk.injEq] at h1
  obtain ⟨h1a, h1b, h1c⟩ := h1
  rw [h1a, h1b] at hplan
  rw [h1a, h1c] at hupl
  have hm := getChecksums_ok_eq crc lfp2 m hchk
  have hmem : ∀ pc ∈ m, pc.1 ∈ lfp2 ∧ crc pc.1 = .ok pc.2 := fun pc hpc =>
    checksumEntry_mem crc lfp2 pc (hm ▸ hpc)
  have hkeys : (m.map Prod.fst).Nodup := by
    rw [hm]
    exact hnd.sublist (checksumEntry_keys_sublist crc lfp2)
  have hperm1 := plan_ok_perm (oracleOfStore store) b a hd rel m req ign hplan
  have hndri : (req ++ ign).Nodup := hperm1.nodup_iff.mpr hkeys
  have hreqnd : req.Nodup := (List.nodup_append.mp hndri).1
  have hdisj := (List.nodup_append.mp hndri).2.2
  have hclass := plan_ok_classifies (oracleOfStore store) b a hd rel m req ign hplan
  have hreqm : ∀ q ∈ req, q ∈ lfp2 := by
    intro q hq
    have : q ∈ m.map Prod.fst :=
      hperm1.mem_iff.mp (List.mem_append.mpr (Or.inl hq))
    obtain ⟨pc, hpc, hfst⟩ := List.mem_map.mp this
    exact hfst ▸ (hmem pc hpc).1
  have hinjreq : ∀ q1 ∈ req, ∀ q2 ∈ req, ∀ r1 r2, rel hd q1 = .ok r1 →
      rel hd q2 = .ok r2 → uploadObjectPath a r1 = uploadObjectPath a r2 → q1 = q2 :=
    fun q1 h1 q2 h2 => hinj q1 (hreqm q1 h1) q2 (hreqm q2 h2)
  have hall : ∀ pc ∈ m, ∃ r, rel hd pc.1 = .ok r ∧
      IsBackupRequired (oracleOfStore st1) b (planObjectPath a r) pc.2 = .ok false := by
    intro pc hpc
    obtain ⟨hpl, hcrc⟩ := hmem pc hpc
    obtain ⟨r, required, hr, hbr, himpT, himpF⟩ := hclass pc hpc
    refine ⟨r, hr, ?_⟩
    cases required with
    | true =>
      have hqreq : pc.1 ∈ req := himpT rfl
      have hlook : List.lookup (uploadObjectPath a r) st1 = some pc.2 :=
        uploadLoop_lookup_self crc b a hd rel req store st1 hupl hreqnd hinjreq
          pc.1 hqreq r pc.2 hr hcrc
      exact isBackupRequired_present_eq st1 b _ pc.2 hlook
    | false =>
      have hqign : pc.1 ∈ ign := himpF rfl
      have hnotreq : pc.1 ∉ req := fun hin => hdisj hin hqign
      have hother : ∀ q ∈ req, ∀ r2, rel hd q = .ok r2 →
          uploadObjectPath a r2 ≠ uploadObjectPath a r := by
        intro q hq r2 hr2 heq
        exact hnotreq ((hinj q (hreqm q hq) pc.1 hpl r2 r hr2 hr heq) ▸ hq)
      have hlookeq : List.lookup (uploadObjectPath a r) st1 =
          List.lookup (uploadObjectPath a r) store :=
        uploadLoop_lookup_other crc b a hd rel req store st1 hupl _ hother
      rw [isBackupRequired_store_congr st1 store b (planObjectPath a r) pc.2 hlookeq]
      exact hbr
  have hplan2 := plan_all_ignored (oracleOfStore st1) b a hd rel m hall
  refine ⟨m.map Prod.fst, ?_, hperm1.symm⟩
  simp only [runBackup, hext, hchk, hplan2]
  rfl

/-- Witness for C8: after the first run uploads `a.txt` into the empty
store, the second run over the same local state requires nothing, ignores
the file and leaves the store unchanged. -/
theorem runBackup_idempotent_witness :
    runBackup false "b" "m" "h"
        (fun p => if p = "h/a.txt" then some (.file .regular) else none)
        (fun _ p => .ok (p.drop 2)) (fun _ => .ok 7) [("m/a.txt", 7)] ["a.txt"] =
      .ok ([], ["h/a.txt"], [("m/a.txt", 7)]) := by
  have h := runBackup_idempotent "b" "m" "h"
    (fun p => if p = "h/a.txt" then some (.file .regular) else none)
    (fun _ p => .ok (p.drop 2)) (fun _ => .ok 7) [] ["a.txt"]
    ["h/a.txt"] [] [("m/a.txt", 7)] ["h/a.txt"] rfl (by simp)
    (by
      intro p hp q hq rp rq h1 h2 _
      rw [List.mem_singleton.mp hp, List.mem_singleton.mp hq])
    rfl
  obtain ⟨ign2, h2, hperm⟩ := h
  have : ign2 = ["h/a.txt"] := List.Perm.eq_singleton (by simpa using hperm)
  rw [this] at h2
  exact h2

/-! ## C9: the remote object key layout -/

/-- Splitting never yields an empty list of segments. -/
theorem splitSlash_ne_nil : ∀ p : List Char, splitSlash p ≠ [] := by
  intro p
  induction p with
  | nil => simp [splitSlash]
  | cons c rest ih =>
    simp only [splitSlash]
    split
    · simp
    · split
      · exact absurd (by assumption) ih
      · simp

/-- Splitting distributes over a slash placed between two halves. -/
theorem splitSlash_append_slash :
    ∀ x y : List Char, splitSlash (x ++ '/' :: y) = splitSlash x ++ splitSlash y := by
  intro x y
  induction x with
  | nil => simp [splitSlash]
  | cons c rest ih =>
    by_cases hc : c = '/'
    · subst hc
      simp [splitSlash, ih]
    · simp only [List.cons_append, splitSlash, if_neg hc, List.append_eq]
      rw [ih]
      cases hs : splitSlash rest with
      | nil => exact absurd hs (splitSlash_ne_nil rest)
      | cons s ss => simp

/-- Joining the split segments reconstructs the path. -/
theorem joinSegs_splitSlash : ∀ p : List Char, joinSegs (splitSlash p) = p := by
  intro p
  induction p with
  | nil => rfl
  | cons c rest ih =>
    by_cases hc : c = '/'
    · subst hc
      simp only [splitSlash, if_pos rfl]
      cases hs : splitSlash rest with
      | nil => exact absurd hs (splitSlash_ne_nil rest)
      | cons s ss =>
        rw [hs] at ih
        simp only [joinSegs]
        rw [ih]
        simp
    · simp only [splitSlash, if_neg hc]
      cases hs : splitSlash rest with
      | nil => exact absurd hs (splitSlash_ne_nil rest)
      | cons s ss =>
        rw [hs] at ih
        cases ss with
        | nil =>
          simp only [joinSegs] at ih ⊢
          rw [ih]
        | cons s2 ss2 =>
          simp only [joinSegs] at ih ⊢
          rw [List.cons_append, ih]

/-- With no `.` or `..` segments, the cleaning stack just drops empty
segments. -/
theorem cleanLoop_no_dots (rooted : Bool) :
    ∀ (segs : List (List Char)) (acc : List (List Char)),
      (∀ s ∈ segs, s ≠ ['.'] ∧ s ≠ ['.', '.']) →
      cleanLoop rooted acc segs = acc.reverse ++ segs.filter (· ≠ []) := by
  intro segs
  induction segs with
  | nil => intro acc _; simp [cleanLoop]
  | cons s rest ih =>
    intro acc h
    have hs := h s (List.mem_cons_self _ _)
    have hrest := fun s2 hs2 => h s2 (List.mem_cons_of_mem _ hs2)
    by_cases hnil : s = []
    · subst hnil
      simp only [cleanLoop, if_pos (Or.inl rfl)]
      rw [ih acc hrest]
      simp
    · have hcond : ¬(s = [] ∨ s = ['.']) := by
        rintro (h1 | h2)
        · exact hnil h1
        · exact hs.1 h2
      simp only [cleanLoop, if_neg hcond, if_neg hs.2]
      rw [ih (s :: acc) hrest]
      simp [hnil]

/-- Joining distributes over appending two nonempty segment lists. -/
theorem joinSegs_append :
    ∀ A B : List (List Char), A ≠ [] → B ≠ [] →
      joinSegs (A ++ B) = joinSegs A ++ '/' :: joinSegs B := by
  intro A
  induction A with
  | nil => intro B h _; exact absurd rfl h
  | cons x A2 ih =>
    intro B _ hB
    cases A2 with
    | nil =>
      cases B with
      | nil => exact absurd rfl hB
      | cons b B2 => simp [joinSegs]
    | cons x2 A3 =>
      have h2 := ih B (by simp) hB
      simp only [List.cons_append, List.append_eq] at h2 ⊢
      simp only [joinSegs]
      rw [h2]
      simp

/-- The join buffer of the three-element call
`path.Join(machineAlias, "/", relativePath)`. -/
theorem goJoinBuf_three (a d : List Char) (h : a ≠ []) :
    goJoinBuf [a, ['/'], d] = a ++ '/' :: '/' :: '/' :: d := by
  simp [goJoinBuf, h]

/-- The three-element `path.Join` on clean segment lists is the plain
slash-join. -/
theorem goJoin_three (a d : List Char)
    (hane : a ≠ []) (haslash : a.head? ≠ some '/')
    (hasegs : ∀ s ∈ splitSlash a, s ≠ [] ∧ s ≠ ['.'] ∧ s ≠ ['.', '.'])
    (hdsegs : ∀ s ∈ splitSlash d, s ≠ [] ∧ s ≠ ['.'] ∧ s ≠ ['.', '.']) :
    goJoin [a, ['/'], d] = a ++ '/' :: d := by
  unfold goJoin
  rw [if_neg (by simp)]
  rw [goJoinBuf_three a d hane]
  unfold goClean
  rw [if_neg (by simp [hane])]
  have hdec : decide ((a ++ '/' :: '/' :: '/' :: d).head? = some '/') = false := by
    rw [List.head?_append_of_ne_nil _ hane]
    exact decide_eq_false haslash
  have hsegs : splitSlash (a ++ '/' :: '/' :: '/' :: d) =
      splitSlash a ++ [] :: [] :: splitSlash d := by
    rw [splitSlash_append_slash a ('/' :: '/' :: d)]
    simp [splitSlash]
  have hnodots : ∀ s ∈ splitSlash a ++ [] :: [] :: splitSlash d,
      s ≠ ['.'] ∧ s ≠ ['.', '.'] := by
    intro s hsm
    rcases List.mem_append.mp hsm with hin | hin
    · exact ⟨(hasegs s hin).2.1, (hasegs s hin).2.2⟩
    · rcases List.mem_cons.mp hin with rfl | hin
      · simp
      rcases List.mem_cons.mp hin with rfl | hin
      · simp
      exact ⟨(hdsegs s hin).2.1, (hdsegs s hin).2.2⟩
  have hfilter : (splitSlash a ++ [] :: [] :: splitSlash d).filter (· ≠ []) =
      splitSlash a ++ splitSlash d := by
    have h1 : (splitSlash a).filter (· ≠ []) = splitSlash a :=
      List.filter_eq_self.mpr (fun s hs => by simpa using (hasegs s hs).1)
    have h2 : (splitSlash d).filter (· ≠ []) = splitSlash d :=
      List.filter_eq_self.mpr (fun s hs => by simpa using (hdsegs s hs).1)
    rw [List.filter_append]
    simp only [List.filter_cons]
    simp only [ne_eq, decide_not] at h1 h2
    simp [h1, h2]
  have hclean : cleanLoop false [] (splitSlash (a ++ '/' :: '/' :: '/' :: d)) =
      splitSlash a ++ splitSlash d := by
    rw [hsegs, cleanLoop_no_dots false _ [] hnodots, hfilter]
    simp
  have hjoin : joinSegs (splitSlash a ++ splitSlash d) = a ++ '/' :: d := by
    rw [joinSegs_append _ _ (splitSlash_ne_nil a) (splitSlash_ne_nil d)]
    rw [joinSegs_splitSlash, joinSegs_splitSlash]
  have hhead : (a ++ '/' :: '/' :: '/' :: d).head? = a.head? :=
    List.head?_append_of_ne_nil _ hane
  have hdec2 : decide (a.head? = some '/') = false := decide_eq_false haslash
  simp only [hhead, hdec2, hclean, hjoin]
  rw [if_neg haslash]
  rw [if_neg (show ¬(a ++ '/' :: d) = [] by simp [hane])]

/-- A clean relative path does not start with a slash. -/
theorem cleanRelPath_head (s : String) (h : cleanRelPath s) :
    s.data.head? ≠ some '/' := by
  obtain ⟨hne, hsegs⟩ := h
  cases hd : s.data with
  | nil => simp
  | cons c rest =>
    intro hcontra
    simp only [List.head?_cons, Option.some.injEq] at hcontra
    subst hcontra
    have : ([] : List Char) ∈ splitSlash s.data := by
      rw [hd]
      simp [splitSlash]
    exact (hsegs [] this).1 rfl

/-- C9: For every file, the remote object key — at planning time and at
upload time alike — is the machine alias joined with the slash-separated
relative path by a forward slash, literally `machineAlias ++ "/" ++ rel`,
for every alias and relative path in clean form (nonempty, no empty, `.`
or `..` segments, as configured aliases and `filepath.Rel` results under
the home directory are); and the key computed at planning time equals the
key used at upload time. -/
theorem objectKey_layout (machineAlias r : String)
    (ha : cleanRelPath machineAlias) (hr : cleanRelPath r) :
    planObjectPath machineAlias r = machineAlias ++ "/" ++ r ∧
    ∀ a2 r2 : String, uploadObjectPath a2 r2 = planObjectPath a2 r2 := by
  refine ⟨?_, fun a2 r2 => rfl⟩
  apply String.ext
  show goJoin [machineAlias.data, ("/" : String).data, r.data] =
    (machineAlias ++ "/" ++ r).data
  have hslash : ("/" : String).data = ['/'] := rfl
  rw [hslash]
  rw [goJoin_three machineAlias.data r.data ha.1 (cleanRelPath_head machineAlias ha)
    ha.2 hr.2]
  rw [String.data_append, String.data_append, hslash]
  simp

/-- Witness for C9: the README's own machine alias `machines/mac14` and a
relative path `.ssh/config` give the object key
`machines/mac14/.ssh/config` at both call sites. -/
theorem objectKey_layout_witness :
    cleanRelPath "machines/mac14" ∧ cleanRelPath ".ssh/config" ∧
    planObjectPath "machines/mac14" ".ssh/config" = "machines/mac14/.ssh/config" ∧
    uploadObjectPath "machines/mac14" ".ssh/config" =
      planObjectPath "machines/mac14" ".ssh/config" :=
  ⟨by decide, by decide,
    by
      have h := objectKey_layout "machines/mac14" ".ssh/config" (by decide) (by decide)
      rw [h.1]
      rfl,
    (objectKey_layout "machines/mac14" ".ssh/config" (by decide) (by decide)).2
      "machines/mac14" ".ssh/config"⟩


end GcpBackup
